import Mathlib

/-!
Verification development for the low-rank factorization core
(`composer/algorithms/factorize/factorize_core.py`).

Matrices are embedded as lists of rows of rationals.  The external numeric
library routines used by the source (`torch.linalg.lstsq`, `torch.linalg.svd`,
`torch.sqrt`, `F.unfold`, `F.pad`) are not code of this repository; they are
modelled as oracle parameters (`NumLib`, `ConvLib`) so that every theorem
about the surrounding control flow holds for an arbitrary solver, and concrete
trivial oracles are supplied for evaluation at concrete inputs.

Python error values are modelled by `PyErr`:
`shapeMismatch` stands for the `IndexError` raised by `_lstsq`
(the spec's *ShapeMismatch*), `notImplemented` for `NotImplementedError`
(the spec's *UnsupportedConfiguration*), and `runtimeError` for the
`RuntimeError` raised on `biasB` without `Wb` (the spec's
*InconsistentArguments*).
-/

attribute [local semireducible] Rat.mul Rat.add Rat.inv Rat.sub

abbrev Vec := List ℚ
abbrev Mat := List (List ℚ)

def rowsN (m : Mat) : ℕ := m.length

def colsN (m : Mat) : ℕ := (m.head?.getD []).length

def dot (u v : Vec) : ℚ := (List.zipWith (fun a b => a * b) u v).sum

def vAdd (u v : Vec) : Vec := List.zipWith (fun a b => a + b) u v

def vSub (u v : Vec) : Vec := List.zipWith (fun a b => a - b) u v

/-- Transpose of a rectangular matrix (row j of the result is column j of the input). -/
def transposeM (m : Mat) : Mat :=
  (List.range (colsN m)).map (fun j => m.map (fun r => r.getD j 0))

def matMul (a b : Mat) : Mat :=
  a.map (fun row => (transposeM b).map (fun col => dot row col))

def matSub (a b : Mat) : Mat := List.zipWith vSub a b

/-- Column sums of a matrix. -/
def sumCols (m : Mat) : Vec := m.foldr vAdd (List.replicate (colsN m) 0)

/-- Mean over dim 0 (column means), as in `tensor.mean(dim=0)`. -/
def meanDim0 (m : Mat) : Vec := (sumCols m).map (fun x => x / (rowsN m : ℚ))

/-- Mean over all elements, as in `tensor.mean()`. -/
def meanAll (m : Mat) : ℚ := m.flatten.sum / (m.flatten.length : ℚ)

/-- Unbiased variance over all elements, as in `tensor.var()` (correction = 1). -/
def varAll (m : Mat) : ℚ :=
  let xs := m.flatten
  let mu := xs.sum / (xs.length : ℚ)
  (xs.map (fun x => (x - mu) * (x - mu))).sum / ((xs.length : ℚ) - 1)

/-- Embedding of `_nmse`: `(diffs * diffs).mean() / Y.var()`. -/
def nmseQ (Y Yhat : Mat) : ℚ :=
  meanAll ((matSub Y Yhat).map (fun r => r.map (fun x => x * x))) / varAll Y

/-- Python `int()` applied to a rational: truncation toward zero. -/
def pyInt (q : ℚ) : Int := if 0 ≤ q then q.floor else -((-q).floor)

/-- Python slice `l[:k]` (a negative `k` counts from the end). -/
def pySlice (k : Int) (l : List α) : List α :=
  if 0 ≤ k then l.take k.toNat else l.take (l.length - k.natAbs)

/-- Split a list into consecutive groups of `n` (fuel-driven so it reduces
in the kernel); models a row-major `reshape` that introduces an axis of
extent `n`. -/
def chunksF : ℕ → ℕ → List α → List (List α)
  | 0, _, _ => []
  | _ + 1, _, [] => []
  | f + 1, n, a :: l => ((a :: l).take n) :: chunksF f n ((a :: l).drop n)

def chunks (n : ℕ) (l : List α) : List (List α) := chunksF l.length n l

inductive PyErr where
  | shapeMismatch
  | notImplemented
  | runtimeError
deriving DecidableEq

/-- Embedding of the `LowRankSolution` dataclass (for the matrix engine,
where `Wa`/`Wb` are 2-D).  Defaults match the source. -/
structure LowRankSolution where
  Wa : Option Mat := none
  Wb : Option Mat := none
  bias : Option Vec := none
  rank : ℚ := -1
  nmse : ℚ := 0
deriving DecidableEq

/-- Oracle bundle for the external numeric primitives: `lin A B` models
`torch.linalg.lstsq(A, B).solution`, `svd W` models
`torch.linalg.svd(W, full_matrices=False)` returning `(U, s, Vt)`, and
`sqrtQ` models `torch.sqrt` on a singular value. -/
structure NumLib where
  lin : Mat → Mat → Mat
  svd : Mat → Mat × (Vec × Mat)
  sqrtQ : ℚ → ℚ

/-- Embedding of `_lstsq`: the shape guards, then the library solve.
(Every embedded matrix is 2-D by construction, so only the row-count guard
is representable.) -/
def lstsqE (L : NumLib) (A B : Mat) : Except PyErr Mat :=
  if rowsN A ≠ rowsN B then .error .shapeMismatch
  else .ok (L.lin A B)

/-- Embedding of the rank-resolution step of `factorize_matrix`
(source lines 140-143): `rank = min(int(rank * X.shape[1]), Wa.shape[1])`
when `rank < 1`. -/
def resolveRank (rank : ℚ) (D cur : ℕ) : ℚ :=
  if rank < 1 then ((min (pyInt (rank * (D : ℚ))) (cur : Int) : Int) : ℚ) else rank

/-- The `Y = Y - original_bias` step (a row-vector broadcast subtraction). -/
def applyBiasSub (Y : Mat) (bias : Option Vec) : Mat :=
  match bias with
  | none => Y
  | some b => Y.map (fun r => vSub r b)

/-- Add an optional row vector (used for `bias += original_bias`). -/
def addOpt (v : Vec) (b : Option Vec) : Vec :=
  match b with
  | none => v
  | some b0 => vAdd v b0

/-- Embedding of `_svd_initialize`: truncated SVD of the effective operator
with square-root load balancing of the singular values. -/
def svdSeed (L : NumLib) (Wa : Mat) (Wb : Option Mat) (k : Int) : Mat × Mat :=
  let W := match Wb with | none => Wa | some b => matMul Wa b
  let U := (L.svd W).1
  let s := (L.svd W).2.1
  let Vt := (L.svd W).2.2
  let Wa1 := U.map (fun row => pySlice k row)
  let Wb1 := pySlice k Vt
  let ssq := (pySlice k s).map L.sqrtQ
  (Wa1.map (fun row => List.zipWith (fun x y => x * y) row ssq),
   List.zipWith (fun si r => r.map (fun x => si * x)) ssq Wb1)

/-- One alternating-least-squares sweep (source loop body, lines 173-195):
refit `Wb` against `Y`, then refit `Wa` against the precomputed target `Ya`. -/
def alsStep (L : NumLib) (X Y Ya : Mat) (p : Mat × Mat) :
    Except PyErr (Mat × Mat) := do
  let Xb := matMul X p.1
  let Wb ← lstsqE L Xb Y
  let WaT ← lstsqE L (transposeM Wb) (transposeM Ya)
  pure (transposeM WaT, Wb)

def alsLoop (L : NumLib) (X Y Ya : Mat) : ℕ → Mat × Mat → Except PyErr (Mat × Mat)
  | 0, p => .ok p
  | n + 1, p => do alsLoop L X Y Ya n (← alsStep L X Y Ya p)

/-- Embedding of `factorize_matrix` (source lines 79-210). -/
def factorize_matrix (L : NumLib) (X Y Wa : Mat) (Wb : Option Mat)
    (bias : Option Vec) (rank : ℚ) (n_iters : ℕ) : Except PyErr LowRankSolution :=
  let k := resolveRank rank (colsN X) (colsN Wa)
  let Y1 := applyBiasSub Y bias
  if ((colsN X : ℚ) ≤ k) ∨ ((colsN Y1 : ℚ) ≤ k) then
    match lstsqE L X Y1 with
    | .error e => .error e
    | .ok Wa1 => .ok { Wa := some Wa1, Wb := none, bias := bias, rank := -1, nmse := 0 }
  else if ((colsN Wa : ℚ) ≤ k) then
    .ok { Wa := some Wa, Wb := Wb, bias := bias, rank := -1, nmse := 0 }
  else
    match lstsqE L X Y1 with
    | .error e => .error e
    | .ok Ya =>
      match alsLoop L X Y1 Ya n_iters (svdSeed L Wa Wb (pyInt k)) with
      | .error e => .error e
      | .ok pr =>
        let Yhat := matMul (matMul X pr.1) pr.2
        let b2 := addOpt (meanDim0 (matSub Y1 Yhat)) bias
        let Yhat2 := Yhat.map (fun r => vAdd r b2)
        .ok { Wa := some pr.1, Wb := some pr.2, bias := some b2, rank := k,
              nmse := nmseQ Y1 Yhat2 }

abbrev T3 := List Mat
abbrev T4 := List T3

/-- Extent of axis 2 of a 4-D tensor (`w.shape[2]`). -/
def dim2 (w : T4) : ℕ := ((w.head?.getD []).head?.getD []).length

/-- Extent of axis 3 of a 4-D tensor (`w.shape[3]`). -/
def dim3 (w : T4) : ℕ := (((w.head?.getD []).head?.getD []).head?.getD []).length

/-- Oracle bundle for the external convolution helpers: `unfoldFn` models
`F.unfold(activations, kernel_size, padding)` (a `[batch, fan_in, n_pos]`
tensor), `padFn` models `F.pad`. -/
structure ConvLib where
  unfoldFn : T4 → ℕ × ℕ → ℕ → T3
  padFn : T4 → ℕ → String → T4

/-- Embedding of `_activations_conv2d_to_mat`: the configuration guards,
optional explicit padding, then unfold / transpose(1,2) / flatten of the
batch axis. -/
def activations_conv2d_to_mat (C : ConvLib) (acts : T4) (kh kw : ℕ)
    (padding : ℕ) (padding_mode : String) (stride dilation groups : ℕ) :
    Except PyErr Mat :=
  if 1 < stride then .error .notImplemented
  else if 1 < dilation then .error .notImplemented
  else if groups ≠ 1 then .error .notImplemented
  else
    let ap : T4 × ℕ :=
      if 0 < padding ∧ padding_mode.toLower ≠ "zeros"
      then (C.padFn acts padding padding_mode, 0)
      else (acts, padding)
    let r := C.unfoldFn ap.1 (kh, kw) ap.2
    .ok ((r.map transposeM).flatten)

/-- The innermost two axes of a weight block, flattened row-major
(one row of `weights.reshape(out_channels, -1)`). -/
def flatten3 (blk : T3) : Vec := blk.flatten.flatten

/-- Embedding of `_weights_conv2d_to_mat`: `weights.reshape(O, -1).T`. -/
def weights_conv2d_to_mat (w : T4) : Mat := transposeM (w.map flatten3)

/-- Embedding of `_mat_to_weights_conv2d`:
`mat.T.reshape(out_channels, -1, kh, kw)` (and `None` maps to `None`). -/
def mat_to_weights_conv2d (mat : Option Mat) (kh kw : ℕ) : Option T4 :=
  match mat with
  | none => none
  | some m =>
    some ((transposeM m).map (fun row => (chunks (kh * kw) row).map (chunks kw)))

/-- The solution record returned by `factorize_conv2d` (same record as
`LowRankSolution` in the source, but its operator fields hold 4-D kernels). -/
structure ConvSolution where
  Wa : Option T4 := none
  Wb : Option T4 := none
  bias : Option Vec := none
  rank : ℚ := -1
  nmse : ℚ := 0
deriving DecidableEq

/-- Embedding of `factorize_conv2d` (source lines 249-335). -/
def factorize_conv2d (L : NumLib) (C : ConvLib) (inputs Wa : T4) (Wb : Option T4)
    (rank : ℚ) (biasA biasB : Option Vec) (n_iters : ℕ)
    (padding : ℕ) (padding_mode : String) (stride dilation groups : ℕ) :
    Except PyErr ConvSolution :=
  let kh := dim2 Wa
  let kw := dim3 Wa
  match activations_conv2d_to_mat C inputs kh kw padding padding_mode stride dilation groups with
  | .error e => .error e
  | .ok Xmat =>
    let WaM := weights_conv2d_to_mat Wa
    let Y0 := matMul Xmat WaM
    let Y1 := match biasA with | none => Y0 | some b => Y0.map (fun r => vAdd r b)
    match Wb, biasB with
    | none, some _ => .error .runtimeError
    | none, none =>
      match factorize_matrix L Xmat Y1 WaM none none rank n_iters with
      | .error e => .error e
      | .ok sol =>
        .ok { Wa := mat_to_weights_conv2d sol.Wa kh kw,
              Wb := mat_to_weights_conv2d sol.Wb 1 1,
              bias := sol.bias, rank := sol.rank, nmse := sol.nmse }
    | some wb, bB =>
      let WbM := weights_conv2d_to_mat wb
      let Y2 := matMul Y1 WbM
      let Y3 := match bB with | none => Y2 | some b => Y2.map (fun r => vAdd r b)
      match factorize_matrix L Xmat Y3 WaM (some WbM) none rank n_iters with
      | .error e => .error e
      | .ok sol =>
        .ok { Wa := mat_to_weights_conv2d sol.Wa kh kw,
              Wb := mat_to_weights_conv2d sol.Wb 1 1,
              bias := sol.bias, rank := sol.rank, nmse := sol.nmse }

/-- A concrete trivial numeric oracle, used to evaluate the engine at
concrete inputs: least squares returns a zero matrix of the right shape and
the SVD returns the matrix itself with unit singular values. -/
def Ltriv : NumLib where
  lin := fun A B => List.replicate (colsN A) (List.replicate (colsN B) 0)
  svd := fun W => (W, (List.replicate (rowsN W) 1, W))
  sqrtQ := fun q => q

/-- A concrete trivial convolution oracle: unfold produces a 1 x 1 x 1 tensor. -/
def Ctriv : ConvLib where
  unfoldFn := fun _ _ _ => [[[1]]]
  padFn := fun a _ _ => a

/-!  List-level helper lemmas used by the round-trip and control-flow proofs. -/

theorem rangeMap_getD {α : Type _} (l : List α) (d : α) :
    (List.range l.length).map (fun j => l.getD j d) = l := by
  induction l with
  | nil => rfl
  | cons a t ih =>
    rw [List.length_cons, List.range_succ_eq_map, List.map_cons, List.map_map]
    refine congrArg₂ List.cons rfl ?_
    rw [List.map_congr_left (g := fun j => t.getD j d) ?step]
    · exact ih
    · intro j _
      simp [Function.comp, List.getD_cons_succ]

theorem getD_map_of_lt {α β : Type _} (m : List α) (f : α → β) (i : ℕ) (d : β) (d' : α)
    (h : i < m.length) : (m.map f).getD i d = f (m.getD i d') := by
  rw [List.getD_eq_getElem?_getD, List.getD_eq_getElem?_getD, List.getElem?_map,
    List.getElem?_eq_getElem h]
  rfl

theorem getD_mem_of_lt {α : Type _} (m : List α) (i : ℕ) (d : α) (h : i < m.length) :
    m.getD i d ∈ m := by
  rw [List.getD_eq_getElem?_getD, List.getElem?_eq_getElem h]
  exact List.getElem_mem h

theorem transposeM_transposeM (m : Mat) (c : ℕ) (hc : 0 < c)
    (hm : ∀ r ∈ m, r.length = c) : transposeM (transposeM m) = m := by
  rcases m with _ | ⟨r, t⟩
  · rfl
  · have hcols : colsN (r :: t) = c := hm r (List.mem_cons_self r t)
    obtain ⟨c', rfl⟩ : ∃ c', c = c' + 1 := ⟨c - 1, by omega⟩
    have ht : transposeM (r :: t)
        = (List.range (c' + 1)).map (fun j => (r :: t).map (fun row => row.getD j 0)) := by
      rw [transposeM, hcols]
    rw [ht, transposeM]
    have hlen : colsN ((List.range (c' + 1)).map
        (fun j => (r :: t).map (fun row => row.getD j 0))) = (r :: t).length := by
      rw [List.range_succ_eq_map]
      simp [colsN]
    rw [hlen]
    have hinner : ∀ i ∈ List.range (r :: t).length,
        ((List.range (c' + 1)).map (fun j => (r :: t).map (fun row => row.getD j 0))).map
          (fun row => row.getD i 0) = (r :: t).getD i [] := by
      intro i hi
      have hi' : i < (r :: t).length := List.mem_range.mp hi
      rw [List.map_map]
      rw [List.map_congr_left (g := fun j => ((r :: t).getD i []).getD j 0) ?inner]
      · have hrow : ((r :: t).getD i []).length = c' + 1 :=
          hm _ (getD_mem_of_lt (r :: t) i [] hi')
        rw [← hrow]
        exact rangeMap_getD _ 0
      · intro j _
        exact getD_map_of_lt (r :: t) (fun row => row.getD j 0) i 0 [] hi'
    rw [List.map_congr_left hinner]
    exact rangeMap_getD (r :: t) []

theorem chunksF_flatten {α : Type _} (n : ℕ) (hn : 0 < n) (L : List (List α)) :
    ∀ f : ℕ, (∀ x ∈ L, x.length = n) → L.flatten.length ≤ f →
      chunksF f n L.flatten = L := by
  induction L with
  | nil => intro f _ _; cases f <;> rfl
  | cons x t ih =>
    intro f hlen hf
    have hx : x.length = n := hlen x (List.mem_cons_self x t)
    rcases x with _ | ⟨a, x'⟩
    · rw [List.length_nil] at hx; omega
    · have hflen : ((a :: x') :: t).flatten.length = n + t.flatten.length := by
        rw [List.flatten_cons, List.length_append, hx]
      rcases f with _ | f'
      · omega
      · rw [List.flatten_cons, List.cons_append]
        simp only [chunksF]
        rw [← List.cons_append, List.take_left' hx, List.drop_left' hx]
        refine congrArg ((a :: x') :: ·) ?_
        refine ih f' (fun y hy => hlen y (List.mem_cons_of_mem _ hy)) ?_
        omega

theorem chunks_flatten {α : Type _} (n : ℕ) (hn : 0 < n) (L : List (List α))
    (hlen : ∀ x ∈ L, x.length = n) : chunks n L.flatten = L :=
  chunksF_flatten n hn L _ hlen (le_refl _)

theorem flatten_flatten {α : Type _} (L : List (List (List α))) :
    L.flatten.flatten = (L.map List.flatten).flatten := by
  induction L with
  | nil => rfl
  | cons x t ih => simp [List.flatten_append, ih]

theorem flatten_length_const {α : Type _} (L : List (List α)) (n : ℕ) :
    (∀ x ∈ L, x.length = n) → L.flatten.length = L.length * n := by
  induction L with
  | nil => intro _; simp
  | cons x t ih =>
    intro h
    simp only [List.flatten_cons, List.length_append, List.length_cons]
    rw [h x (List.mem_cons_self x t), ih (fun y hy => h y (List.mem_cons_of_mem x hy))]
    ring

theorem flatten3_length (blk : T3) (I kh kw : ℕ) (hI : blk.length = I)
    (h : ∀ p ∈ blk, p.length = kh ∧ ∀ row ∈ p, row.length = kw) :
    (flatten3 blk).length = I * (kh * kw) := by
  unfold flatten3
  rw [flatten_flatten]
  rw [flatten_length_const (blk.map List.flatten) (kh * kw) ?h1]
  · rw [List.length_map, hI]
  · intro x hx
    obtain ⟨p, hp, rfl⟩ := List.mem_map.mp hx
    rw [flatten_length_const p kw (h p hp).2, (h p hp).1]

theorem rowsN_applyBiasSub (Y : Mat) (b : Option Vec) :
    rowsN (applyBiasSub Y b) = rowsN Y := by
  cases b <;> simp [applyBiasSub, rowsN]

/-- C8 (confirmed): for every 4-D convolution weight tensor (positive extents,
rectangular), `_weights_conv2d_to_mat` followed by `_mat_to_weights_conv2d`
with the original kernel size reproduces the weight tensor exactly, in both
shape and values. -/
theorem c8_weights_roundtrip (w : T4) (I kh kw : ℕ) (hI : 0 < I) (hkh : 0 < kh)
    (hkw : 0 < kw)
    (hw : ∀ blk ∈ w, blk.length = I ∧ ∀ p ∈ blk, p.length = kh ∧ ∀ row ∈ p, row.length = kw) :
    mat_to_weights_conv2d (some (weights_conv2d_to_mat w)) kh kw = some w := by
  simp only [mat_to_weights_conv2d, weights_conv2d_to_mat]
  rw [transposeM_transposeM (w.map flatten3) (I * (kh * kw)) (by positivity) ?rect]
  case rect =>
    intro r hr
    obtain ⟨blk, hblk, rfl⟩ := List.mem_map.mp hr
    exact flatten3_length blk I kh kw (hw blk hblk).1 (hw blk hblk).2
  rw [List.map_map]
  refine congrArg some ?_
  have hpt : ∀ blk ∈ w,
      ((fun row => (chunks (kh * kw) row).map (chunks kw)) ∘ flatten3) blk = id blk := by
    intro blk hblk
    obtain ⟨hlen, hp⟩ := hw blk hblk
    simp only [Function.comp, id]
    unfold flatten3
    rw [flatten_flatten]
    rw [chunks_flatten (kh * kw) (by positivity) (blk.map List.flatten) ?lens]
    case lens =>
      intro x hx
      obtain ⟨p, hpm, rfl⟩ := List.mem_map.mp hx
      rw [flatten_length_const p kw (hp p hpm).2, (hp p hpm).1]
    rw [List.map_map]
    rw [List.map_congr_left (g := id) ?pt]
    · exact List.map_id blk
    · intro p hpm
      simp only [Function.comp, id]
      exact chunks_flatten kw hkw p (hp p hpm).2
  rw [List.map_congr_left hpt]
  exact List.map_id w

/-- Witness for C8 at a concrete 1 x 2 x 1 x 2 kernel. -/
theorem c8_weights_roundtrip_witness :
    mat_to_weights_conv2d (some (weights_conv2d_to_mat [[[[1, 2]], [[3, 4]]]])) 1 2
      = some [[[[1, 2]], [[3, 4]]]] :=
  c8_weights_roundtrip [[[[1, 2]], [[3, 4]]]] 2 1 2 (by decide) (by decide) (by decide)
    (by decide)

/-- C4 (confirmed): whenever the resolved rank `k` is at least the column
count of `X` or at least the column count of `Y` (for a valid call: matching
row counts, well-formed bias), `factorize_matrix` returns the unconstrained
least-squares fit of the bias-subtracted `Y` on `X` as `Wa`, with `Wb`
absent and `rank` the sentinel `-1`.  No hypothesis constrains `Wb` or
`colsN Wa`, so this branch takes precedence over the already-factorized
degenerate check when both conditions hold. -/
theorem c4_degenerate_lstsq (L : NumLib) (X Y Wa : Mat) (Wb : Option Mat)
    (bias : Option Vec) (rank : ℚ) (n_iters : ℕ)
    (hrows : rowsN X = rowsN Y)
    (hcols : colsN (applyBiasSub Y bias) = colsN Y)
    (hk : (colsN X : ℚ) ≤ resolveRank rank (colsN X) (colsN Wa)
        ∨ (colsN Y : ℚ) ≤ resolveRank rank (colsN X) (colsN Wa)) :
    factorize_matrix L X Y Wa Wb bias rank n_iters
      = .ok { Wa := some (L.lin X (applyBiasSub Y bias)), Wb := none, bias := bias,
              rank := -1, nmse := 0 } := by
  simp only [factorize_matrix, lstsqE]
  rw [if_pos (by rw [hcols]; exact hk)]
  rw [if_neg (by rw [rowsN_applyBiasSub, hrows]; exact fun hne => hne rfl)]

/-- Witness for C4: a call where both the `k` at least `min(D, M)` condition
and the already-factorized `k` at least current-rank condition hold; the
least-squares branch wins and the supplied `Wb` is dropped. -/
theorem c4_degenerate_lstsq_witness :
    factorize_matrix Ltriv [[1]] [[1]] [[1]] (some [[1]]) none 1 0
      = .ok { Wa := some (Ltriv.lin [[1]] (applyBiasSub [[1]] none)), Wb := none,
              bias := none, rank := -1, nmse := 0 } :=
  c4_degenerate_lstsq Ltriv [[1]] [[1]] [[1]] (some [[1]]) none 1 0 rfl rfl
    (Or.inl (by decide))

/-- C5 (confirmed): for a call with an already-factorized pair whose resolved
rank `k` is below both `colsN X` and `colsN Y` but at least `colsN Wa` (the
current factor rank), the engine returns the input `Wa` and `Wb` unchanged
with `rank` the sentinel `-1`. -/
theorem c5_already_factorized (L : NumLib) (X Y Wa wb : Mat) (bias : Option Vec)
    (rank : ℚ) (n_iters : ℕ)
    (hcols : colsN (applyBiasSub Y bias) = colsN Y)
    (hD : resolveRank rank (colsN X) (colsN Wa) < (colsN X : ℚ))
    (hM : resolveRank rank (colsN X) (colsN Wa) < (colsN Y : ℚ))
    (hcur : (colsN Wa : ℚ) ≤ resolveRank rank (colsN X) (colsN Wa)) :
    factorize_matrix L X Y Wa (some wb) bias rank n_iters
      = .ok { Wa := some Wa, Wb := some wb, bias := bias, rank := -1, nmse := 0 } := by
  simp only [factorize_matrix]
  rw [if_neg (by rw [hcols]; push_neg; exact ⟨hD, hM⟩)]
  rw [if_pos hcur]

/-- Witness for C5 at a concrete already-factorized pair. -/
theorem c5_already_factorized_witness :
    factorize_matrix Ltriv [[0, 0], [0, 0]] [[0, 0], [0, 0]] [[1], [1]] (some [[1, 1]])
      none 1 3
      = .ok { Wa := some [[1], [1]], Wb := some [[1, 1]], bias := none, rank := -1,
              nmse := 0 } :=
  c5_already_factorized Ltriv [[0, 0], [0, 0]] [[0, 0], [0, 0]] [[1], [1]] [[1, 1]]
    none 1 3 rfl (by decide) (by decide) (by decide)

/-- C10 (confirmed): when the call takes the iterative path (resolved rank
below `colsN X`, `colsN Y`, and `colsN Wa`), the returned `bias` is always
present and equals the mean residual of the bias-subtracted target against
`X @ Wa @ Wb` (for the returned factors) plus any supplied bias — even when
the caller passed no bias; on both degenerate paths the returned `bias` is
exactly the caller-supplied optional bias (present iff supplied). -/
theorem c10_bias_field (L : NumLib) (X Y Wa : Mat) (Wb : Option Mat) (bias : Option Vec)
    (rank : ℚ) (n_iters : ℕ) (sol : LowRankSolution)
    (h : factorize_matrix L X Y Wa Wb bias rank n_iters = .ok sol) :
    ((resolveRank rank (colsN X) (colsN Wa) < (colsN X : ℚ)
      ∧ resolveRank rank (colsN X) (colsN Wa) < (colsN (applyBiasSub Y bias) : ℚ)
      ∧ resolveRank rank (colsN X) (colsN Wa) < (colsN Wa : ℚ)) →
      ∃ wa wb, sol.Wa = some wa ∧ sol.Wb = some wb ∧
        sol.bias = some (addOpt (meanDim0 (matSub (applyBiasSub Y bias)
          (matMul (matMul X wa) wb))) bias))
    ∧ (¬(resolveRank rank (colsN X) (colsN Wa) < (colsN X : ℚ)
      ∧ resolveRank rank (colsN X) (colsN Wa) < (colsN (applyBiasSub Y bias) : ℚ)
      ∧ resolveRank rank (colsN X) (colsN Wa) < (colsN Wa : ℚ)) →
      sol.bias = bias) := by
  simp only [factorize_matrix] at h
  split at h
  case isTrue hA =>
    split at h
    · cases h
    · injection h with h
      subst h
      constructor
      · rintro ⟨h1, h2, _⟩
        rcases hA with hA | hA
        · exact absurd hA (not_le.mpr h1)
        · exact absurd hA (not_le.mpr h2)
      · intro _
        rfl
  case isFalse hA =>
    split at h
    case isTrue hB =>
      injection h with h
      subst h
      constructor
      · rintro ⟨_, _, h3⟩
        exact absurd hB (not_le.mpr h3)
      · intro _
        rfl
    case isFalse hB =>
      split at h
      · cases h
      · split at h
        · cases h
        · injection h with h
          subst h
          push_neg at hA
          constructor
          · intro _
            exact ⟨_, _, rfl, rfl, rfl⟩
          · intro hn
            exact absurd ⟨hA.1, hA.2, not_le.mp hB⟩ hn

/-- Witness for C10 on a degenerate-path call (already-factorized pair,
requested rank equal to the current rank): the returned bias is exactly the
caller-supplied one. -/
theorem c10_bias_field_witness :
    ({ Wa := some [[1], [1]], Wb := some [[1, 1]], bias := some [5, 5], rank := -1,
       nmse := 0 } : LowRankSolution).bias = some [5, 5] :=
  (c10_bias_field Ltriv [[0, 0], [0, 0]] [[0, 0], [0, 0]] [[1], [1]] (some [[1, 1]])
    (some [5, 5]) 1 3 _ rfl).2 (by decide)

/-- C1 counterexample: an already-factorized pair with requested rank equal
to the current factor rank (1) but below `colsN X = colsN Y = 2` hits the
second degenerate branch, which returns `rank = -1` together with the
supplied `Wb` — so the sentinel does not imply that `Wb` is absent. -/
theorem c1_sentinel_wb_cex :
    (factorize_matrix Ltriv [[0, 0], [0, 0]] [[0, 0], [0, 0]] [[1], [1]]
        (some [[1, 1]]) none 1 3).toOption.map (fun s => (s.rank, s.Wb))
      = some (-1, some [[1, 1]])
    ∧ (some [[(1 : ℚ), 1]] : Option Mat) ≠ none := by
  exact ⟨by decide, by decide⟩

/-- C1 amended: for calls whose resolved rank is nonnegative, a returned
sentinel rank means either `Wb` is absent (single-matrix / least-squares
branch) or the call hit the already-factorized degenerate branch
(`colsN Wa ≤ k`), where the supplied `Wa` and `Wb` are returned unchanged —
so `Wb` may be present. -/
theorem c1_sentinel_wb (L : NumLib) (X Y Wa : Mat) (Wb : Option Mat) (bias : Option Vec)
    (rank : ℚ) (n_iters : ℕ) (sol : LowRankSolution)
    (hk : 0 ≤ resolveRank rank (colsN X) (colsN Wa))
    (h : factorize_matrix L X Y Wa Wb bias rank n_iters = .ok sol)
    (hs : sol.rank = -1) :
    sol.Wb = none
    ∨ (sol.Wa = some Wa ∧ sol.Wb = Wb
       ∧ (colsN Wa : ℚ) ≤ resolveRank rank (colsN X) (colsN Wa)) := by
  simp only [factorize_matrix] at h
  split at h
  · split at h
    · cases h
    · injection h with h
      subst h
      exact Or.inl rfl
  · split at h
    case isTrue hB =>
      injection h with h
      subst h
      exact Or.inr ⟨rfl, rfl, hB⟩
    case isFalse hB =>
      split at h
      · cases h
      · split at h
        · cases h
        · injection h with h
          subst h
          simp only [LowRankSolution.rank] at hs
          rw [hs] at hk
          norm_num at hk

/-- Witness for C1 amended, on the least-squares degenerate branch. -/
theorem c1_sentinel_wb_witness :
    (none : Option Mat) = none
    ∨ ((some [[(0 : ℚ)]] : Option Mat) = some [[1]] ∧ (none : Option Mat) = none
       ∧ (colsN [[1]] : ℚ) ≤ resolveRank 1 (colsN [[1]]) (colsN [[1]])) :=
  c1_sentinel_wb Ltriv [[1]] [[1]] [[1]] none none 1 0
    { Wa := some [[0]], Wb := none, bias := none, rank := -1, nmse := 0 }
    (by decide) rfl rfl

/-- C6 counterexample: `X` has 2 rows, `Y` has 1 row, yet the call succeeds —
the already-factorized degenerate branch (resolved rank 2 below
`colsN X = 5` and `colsN Y = 4` but equal to `colsN Wa = 2`) returns without
ever reaching the `_lstsq` shape validation. -/
theorem c6_shape_guard_cex :
    rowsN [[0, 0, 0, 0, 0], [0, 0, 0, 0, 0]] ≠ rowsN [[(0 : ℚ), 0, 0, 0]]
    ∧ (factorize_matrix Ltriv [[0, 0, 0, 0, 0], [0, 0, 0, 0, 0]] [[0, 0, 0, 0]]
        [[0, 0], [0, 0], [0, 0], [0, 0], [0, 0]]
        (some [[0, 0, 0, 0], [0, 0, 0, 0]]) none 2 3).toOption.isSome = true := by
  exact ⟨by decide, by decide⟩

/-- C6 amended: a row-count mismatch between `X` and `Y` fails with the
*ShapeMismatch* error on every path that reaches a least-squares solve —
the single-matrix degenerate branch and the iterative path — but the
already-factorized degenerate branch returns without any shape validation. -/
theorem c6_shape_guard (L : NumLib) (X Y Wa : Mat) (Wb : Option Mat) (bias : Option Vec)
    (rank : ℚ) (n_iters : ℕ)
    (hr : rowsN X ≠ rowsN Y)
    (hcase : (colsN X : ℚ) ≤ resolveRank rank (colsN X) (colsN Wa)
      ∨ (colsN (applyBiasSub Y bias) : ℚ) ≤ resolveRank rank (colsN X) (colsN Wa)
      ∨ resolveRank rank (colsN X) (colsN Wa) < (colsN Wa : ℚ)) :
    factorize_matrix L X Y Wa Wb bias rank n_iters = .error .shapeMismatch := by
  have hlq : lstsqE L X (applyBiasSub Y bias) = .error .shapeMismatch := by
    unfold lstsqE
    rw [if_pos (by rw [rowsN_applyBiasSub]; exact hr)]
  simp only [factorize_matrix]
  split
  · rw [hlq]
  case isFalse hA =>
    split
    case isTrue hB =>
      exfalso
      push_neg at hA
      rcases hcase with hc | hc | hc
      · exact absurd hc (not_le.mpr hA.1)
      · exact absurd hc (not_le.mpr hA.2)
      · exact absurd hB (not_le.mpr hc)
    case isFalse => rw [hlq]

/-- Witness for C6 amended: mismatched row counts on the least-squares
degenerate branch produce the *ShapeMismatch* error. -/
theorem c6_shape_guard_witness :
    factorize_matrix Ltriv [[0]] [[0], [0]] [[0]] none none 5 3
      = .error .shapeMismatch :=
  c6_shape_guard Ltriv [[0]] [[0], [0]] [[0]] none none 5 3 (by decide)
    (Or.inl (by decide))

/-- Rank-resolution rule exactly as the claim words it (for comparison with
the source's `resolveRank`): the fraction is applied to `min(D, current
rank of Wa)` and then truncated. -/
def resolveRankClaim (rank : ℚ) (D cur : ℕ) : ℚ :=
  (((rank * ((min D cur : ℕ) : ℚ)).floor : Int) : ℚ)

/-- C2 counterexample: with `rank = 1/2`, `D = 10` and current rank 3, the
source computes `min(int(0.5 * 10), 3) = 3`, while the claim's formula
gives `floor(0.5 * min(10, 3)) = 1`. -/
theorem c2_fraction_cex :
    resolveRank (1 / 2) 10 3 = 3 ∧ resolveRankClaim (1 / 2) 10 3 = 1
      ∧ (3 : ℚ) ≠ 1 := by
  exact ⟨by decide, by decide, by decide⟩

/-- C2 amended: for `rank < 1`, the resolved rank is
`min(trunc(rank * D), colsN Wa)` — the truncated fraction is applied to `D`
alone and the result clamped by the current rank of `Wa`, not applied to
`min(D, current rank)`. -/
theorem c2_fraction_resolution (rank : ℚ) (D cur : ℕ) (h : rank < 1) :
    resolveRank rank D cur = ((min (pyInt (rank * (D : ℚ))) (cur : Int) : Int) : ℚ) := by
  unfold resolveRank
  rw [if_pos h]

/-- Witness for C2 amended at `rank = 1/2`, `D = 10`, current rank 3. -/
theorem c2_fraction_resolution_witness :
    resolveRank (1 / 2) 10 3 = 3 :=
  (c2_fraction_resolution (1 / 2) 10 3 (by decide)).trans (by decide)

/-- The nmse as the claim states it, computed from a solution: mean squared
residual between the caller-supplied target `Y` and the full approximation
`X @ Wa @ Wb + bias` (returned factors and final bias), divided by the
variance of `Y`. -/
def claimedNMSE (X Y : Mat) (sol : LowRankSolution) : ℚ :=
  match sol.Wa, sol.Wb, sol.bias with
  | some wa, some wb, some b =>
      nmseQ Y ((matMul (matMul X wa) wb).map (fun r => vAdd r b))
  | _, _, _ => 0

/-- C3: evaluation of the code at a failing input.  On an iterative-path
call with a supplied bias `[1, 0]`, the returned `nmse` is `5/6`, while the
nmse the claim (and the `LowRankSolution` docstring) prescribes for the
returned solution is `1/2`: the source compares the bias-subtracted target
against a prediction to which the full final bias (which already contains
the supplied bias) was added, and normalizes by the variance of the
bias-subtracted target. -/
theorem c3_nmse_eval :
    (factorize_matrix Ltriv [[1, 0], [0, 1]] [[0, 0], [4, 0]] [[1, 0], [0, 1]] none
        (some [1, 0]) 1 1).toOption.map
      (fun s => (s.nmse, claimedNMSE [[1, 0], [0, 1]] [[0, 0], [4, 0]] s))
      = some (5 / 6, 1 / 2)
    ∧ ((5 : ℚ) / 6) ≠ 1 / 2 := by
  exact ⟨by decide, by decide⟩

/-- C9 counterexample: `stride = 0` is a value different from 1, yet the
guard `np.max(stride) > 1` does not fire and the call succeeds. -/
theorem c9_guard_cex :
    (0 : ℕ) ≠ 1
    ∧ (factorize_conv2d Ltriv Ctriv [[[[1]]]] [[[[2]]]] none 5 none none 3 0 "zeros"
        0 1 1).toOption.isSome = true := by
  exact ⟨by decide, by decide⟩

/-- C9 amended: for every input and for every unfold/pad oracle (so before
any unfold work is performed), `factorize_conv2d` with `stride > 1`,
`dilation > 1`, or `groups ≠ 1` fails with the *UnsupportedConfiguration*
error; values of stride or dilation below 1 are not rejected. -/
theorem c9_unsupported_config (L : NumLib) (C : ConvLib) (inputs Wa : T4)
    (Wb : Option T4) (rank : ℚ) (biasA biasB : Option Vec) (n_iters padding : ℕ)
    (pm : String) (stride dilation groups : ℕ)
    (h : 1 < stride ∨ 1 < dilation ∨ groups ≠ 1) :
    factorize_conv2d L C inputs Wa Wb rank biasA biasB n_iters padding pm
      stride dilation groups = .error .notImplemented := by
  simp only [factorize_conv2d, activations_conv2d_to_mat]
  rcases h with h | h | h
  · rw [if_pos h]
  · by_cases hs : 1 < stride
    · rw [if_pos hs]
    · rw [if_neg hs, if_pos h]
  · by_cases hs : 1 < stride
    · rw [if_pos hs]
    · rw [if_neg hs]
      by_cases hd : 1 < dilation
      · rw [if_pos hd]
      · rw [if_neg hd, if_pos h]

/-- Witness for C9 amended at `stride = 2`. -/
theorem c9_unsupported_config_witness :
    factorize_conv2d Ltriv Ctriv [[[[1]]]] [[[[1]]]] none 1 none none 3 0 "zeros"
      2 1 1 = .error .notImplemented :=
  c9_unsupported_config Ltriv Ctriv [[[[1]]]] [[[[1]]]] none 1 none none 3 0 "zeros"
    2 1 1 (Or.inl (by decide))

